import Mathlib

/-!
Verification of the LLMFS tokenizer (`src/1. Tokenizer/tokenizer.py`).

Text is modelled as `List Char`.  The pre-tokenizer models
`re.split(r'([,.:;?_!"()\']|--|\s)', text)` followed by the
strip-and-drop-empty filter; `\s` is modelled by the ASCII whitespace
characters.  Python dictionaries built by comprehension (later bindings
overwrite earlier ones) are modelled by `lastIndexOf`-based lookups.
-/

/-- Whitespace characters, modelling the characters matched by `\s`
in the splitting regex and by `str.strip()`. -/
def isWS (c : Char) : Bool :=
  c = ' ' || c = '\t' || c = '\n' || c = '\x0d' || c = '\x0b' || c = '\x0c'

/-- The punctuation class of the splitting regex `[,.:;?_!"()\']`. -/
def isPunct (c : Char) : Bool :=
  c = ',' || c = '.' || c = ':' || c = ';' || c = '?' || c = '_' ||
  c = '!' || c = '"' || c = '(' || c = ')' || c = '\''

/-- The punctuation class of `SimpleTokenizerV2.decode`'s substitution
regex `[,.:;?!"()\']` (the split class without the underscore). -/
def isDecPunct (c : Char) : Bool :=
  c = ',' || c = '.' || c = ':' || c = ';' || c = '?' ||
  c = '!' || c = '"' || c = '(' || c = ')' || c = '\''

/-- The punctuation class of `SimpleTokenizerV1.decode`'s substitution
regex `[,.?!"()\']`. -/
def isDecPunctV1 (c : Char) : Bool :=
  c = ',' || c = '.' || c = '?' ||
  c = '!' || c = '"' || c = '(' || c = ')' || c = '\''

/-- The double-hyphen separator `--` of the splitting regex. -/
def ddTok : List Char := ['-', '-']

/-- Does the text begin with a word character, i.e. would the scanner
extend a current word into this text?  False on punctuation, whitespace,
a `--` separator, and at the end of text. -/
def startsWordB : List Char → Bool
  | [] => false
  | [c] => !(isPunct c) && !(isWS c)
  | c :: d :: _ => !(isPunct c) && !(isWS c) && !(c = '-' && d = '-')

/-- Attach character `c` to the front of the first token when `cont` is
true (the word continues), otherwise start a fresh one-character token. -/
def glue (c : Char) (cont : Bool) (ts : List (List Char)) : List (List Char) :=
  if cont then
    match ts with
    | [] => [[c]]
    | t :: ts2 => (c :: t) :: ts2
  else [c] :: ts

/-- The pre-tokenizer: models
`[item.strip() for item in re.split(r'([,.:;?_!"()\']|--|\s)', text) if item.strip()]`.
Punctuation characters and `--` become their own tokens, whitespace is
dropped, and maximal runs of the remaining characters form word tokens. -/
def split : List Char → List (List Char)
  | [] => []
  | [c] =>
    if isPunct c then [[c]]
    else if isWS c then []
    else [[c]]
  | c :: d :: rest =>
    if isPunct c then [c] :: split (d :: rest)
    else if isWS c then split (d :: rest)
    else if c = '-' && d = '-' then ddTok :: split rest
    else glue c (startsWordB (d :: rest)) (split (d :: rest))

/-- One-step unfolding of `split` on a nonempty text, phrased with a
head lookahead. -/
theorem split_cons (c : Char) (rest : List Char) :
    split (c :: rest) =
      if isPunct c then [c] :: split rest
      else if isWS c then split rest
      else if c = '-' && rest.head? = some '-' then ddTok :: split rest.tail
      else glue c (startsWordB rest) (split rest) := by
  cases rest with
  | nil =>
    by_cases hp : isPunct c = true
    · simp [split, hp]
    · rw [Bool.not_eq_true] at hp
      by_cases hw : isWS c = true
      · simp [split, hp, hw]
      · rw [Bool.not_eq_true] at hw
        simp [split, hp, hw, glue, startsWordB]
  | cons d r2 =>
    by_cases hp : isPunct c = true
    · simp [split, hp]
    · rw [Bool.not_eq_true] at hp
      by_cases hw : isWS c = true
      · simp [split, hp, hw]
      · rw [Bool.not_eq_true] at hw
        by_cases hd : (c = '-' && (d = '-' : Bool)) = true
        · simp only [Bool.and_eq_true, decide_eq_true_eq] at hd
          simp [split, hp, hw, hd.1, hd.2]
        · simp only [Bool.and_eq_true, decide_eq_true_eq, not_and] at hd
          by_cases hc : c = '-'
          · have hdd : ¬ (d = '-') := hd hc
            simp [split, hp, hw, hc, hdd]
          · simp [split, hp, hw, hc]

/-- Strict lexicographic comparison on character lists, modelling
Python's `<` on strings (code-point order, proper prefixes first). -/
def lexLt : List Char → List Char → Bool
  | [], [] => false
  | [], _ :: _ => true
  | _ :: _, [] => false
  | a :: s, b :: t => if a < b then true else if b < a then false else lexLt s t

/-- Insert a string into a strictly sorted list, keeping it strictly
sorted and duplicate-free. -/
def insTok (s : List Char) : List (List Char) → List (List Char)
  | [] => [s]
  | t :: rest =>
    if lexLt s t then s :: t :: rest
    else if lexLt t s then t :: insTok s rest
    else t :: rest

/-- Models Python's `sorted(set(l))`: the strictly sorted list of the
distinct elements of `l`. -/
def sortDedup (l : List (List Char)) : List (List Char) := l.foldr insTok []

/-- The end-of-text special token. -/
def eotTok : List Char := "<|endoftext|>".toList

/-- The unknown-symbol special token. -/
def unkTok : List Char := "<|unk|>".toList

/-- `all_words = sorted(set(preprocessed))`: the `SimpleTokenizerV1`
vocabulary list built from a corpus. -/
def allWords (corpus : List Char) : List (List Char) := sortDedup (split corpus)

/-- `all_tokens = sorted(list(set(preprocessed)))` followed by
`all_tokens.extend(["<|endoftext|>", "<|unk|>"])`: the
`SimpleTokenizerV2` vocabulary list. -/
def allTokens (corpus : List Char) : List (List Char) :=
  allWords corpus ++ [eotTok, unkTok]

/-- Index of the last occurrence of `s` in `v`, `none` if absent.
This is the value `{token: i for i, token in enumerate(v)}[s]`:
in a Python dict comprehension a later binding overwrites an earlier
one, so a duplicated token gets its largest index. -/
def lastIndexOf (v : List (List Char)) (s : List Char) : Option Nat :=
  match v with
  | [] => none
  | t :: rest =>
    match lastIndexOf rest s with
    | some i => some (i + 1)
    | none => if t = s then some 0 else none

/-- `self.str_to_int[s]`, as an `Option` (a missing key is a KeyError). -/
def strToInt (v : List (List Char)) (s : List Char) : Option Nat :=
  lastIndexOf v s

/-- `self.int_to_str[i]`, as an `Option`.  `int_to_str` is
`{i: s for s, i in vocab.items()}`, so `i` is bound exactly when some
token `s` has `str_to_int[s] = i`. -/
def intToStr (v : List (List Char)) (i : Nat) : Option (List Char) :=
  match v[i]? with
  | none => none
  | some s => if strToInt v s = some i then some s else none

/-- A Python list comprehension whose body can raise: evaluates `f`
left to right and fails (raises) at the first failure. -/
def mapO (f : A → Option B) : List A → Option (List B)
  | [] => some []
  | x :: l =>
    match f x, mapO f l with
    | some y, some ys => some (y :: ys)
    | _, _ => none

/-- `SimpleTokenizerV1.encode`: split, then look every item up in
`str_to_int`; a missing item raises (KeyError), modelled by `none`. -/
def encodeV1 (v : List (List Char)) (text : List Char) : Option (List Nat) :=
  mapO (strToInt v) (split text)

/-- The unknown-token substitution inside `SimpleTokenizerV2.encode`:
`item if item in self.str_to_int else "<|unk|>"`. -/
def subUnk (v : List (List Char)) (item : List Char) : List Char :=
  if (strToInt v item).isSome then item else unkTok

/-- `SimpleTokenizerV2.encode`: split, replace unknown items by
`"<|unk|>"`, then look each item up in `str_to_int`. -/
def encodeV2 (v : List (List Char)) (text : List Char) : Option (List Nat) :=
  mapO (strToInt v) ((split text).map (subUnk v))

/-- Skip a whitespace run and test whether the first character after it
satisfies `cls`.  Helper for the decode substitution regex. -/
def afterRunP (cls : Char → Bool) : List Char → Bool
  | [] => false
  | c :: rest => if isWS c then afterRunP cls rest else cls c

/-- Models `re.sub(r'\s+([cls])', r'\1', text)`: a whitespace character
is deleted exactly when its maximal whitespace run is immediately
followed by a character of class `cls`. -/
def removeSpP (cls : Char → Bool) : List Char → List Char
  | [] => []
  | c :: rest =>
    if isWS c && afterRunP cls rest then removeSpP cls rest
    else c :: removeSpP cls rest

/-- Python's `" ".join`: concatenate with a single space between
consecutive elements. -/
def joinSp : List (List Char) → List Char
  | [] => []
  | [t] => t
  | t :: t2 :: ts => t ++ ' ' :: joinSp (t2 :: ts)

/-- `SimpleTokenizerV2.decode`: look every id up in `int_to_str`
(KeyError on a missing id), join with single spaces, then delete
whitespace runs before the punctuation class `[,.:;?!"()\']`. -/
def decodeV2 (v : List (List Char)) (ids : List Nat) : Option (List Char) :=
  (mapO (intToStr v) ids).map
    (fun ss => removeSpP isDecPunct (joinSp ss))

/-- `SimpleTokenizerV1.decode`: as `decodeV2` but with the smaller
punctuation class `[,.?!"()\']`. -/
def decodeV1 (v : List (List Char)) (ids : List Nat) : Option (List Char) :=
  (mapO (intToStr v) ids).map
    (fun ss => removeSpP isDecPunctV1 (joinSp ss))

/-! ### Order lemmas for `lexLt` -/

theorem lexLt_irrefl (s : List Char) : lexLt s s = false := by
  induction s with
  | nil => rfl
  | cons a t ih => simp [lexLt, lt_irrefl, ih]

theorem lexLt_trans {a b c : List Char} (h1 : lexLt a b = true)
    (h2 : lexLt b c = true) : lexLt a c = true := by
  induction a generalizing b c with
  | nil =>
    cases c with
    | nil => cases b <;> simp [lexLt] at h1 h2
    | cons y t => simp [lexLt]
  | cons x s ih =>
    cases b with
    | nil => simp [lexLt] at h1
    | cons y t =>
      cases c with
      | nil => simp [lexLt] at h2
      | cons z u =>
        simp only [lexLt] at h1 h2 ⊢
        rcases lt_trichotomy x y with hxy | hxy | hxy
        · rcases lt_trichotomy y z with hyz | hyz | hyz
          · simp [lt_trans hxy hyz]
          · subst hyz; simp [hxy]
          · simp [hxy, not_lt_of_gt hxy, hyz, not_lt_of_gt hyz] at h2 ⊢
        · subst hxy
          simp [lt_irrefl] at h1
          rcases lt_trichotomy x z with hyz | hyz | hyz
          · simp [hyz]
          · subst hyz
            simp [lt_irrefl] at h2 ⊢
            exact ih h1 h2
          · simp [not_lt_of_gt hyz, hyz] at h2 ⊢
        · simp [not_lt_of_gt hxy, hxy] at h1

theorem lexLt_eq_of_not {a b : List Char} (h1 : lexLt a b = false)
    (h2 : lexLt b a = false) : a = b := by
  induction a generalizing b with
  | nil => cases b with
    | nil => rfl
    | cons y t => simp [lexLt] at h1
  | cons x s ih =>
    cases b with
    | nil => simp [lexLt] at h2
    | cons y t =>
      simp only [lexLt] at h1 h2
      rcases lt_trichotomy x y with hxy | hxy | hxy
      · simp [hxy] at h1
      · subst hxy
        simp [lt_irrefl] at h1 h2
        rw [ih h1 h2]
      · simp [hxy, not_lt_of_gt hxy] at h2

theorem lexLt_asymm {a b : List Char} (h : lexLt a b = true) :
    lexLt b a = false := by
  by_contra hc
  have hba : lexLt b a = true := by
    cases hx : lexLt b a with
    | false => exact absurd hx hc
    | true => rfl
  have := lexLt_trans h hba
  rw [lexLt_irrefl] at this
  exact Bool.false_ne_true this

/-! ### `insTok` and `sortDedup` -/

theorem mem_insTok {s x : List Char} {l : List (List Char)} :
    x ∈ insTok s l ↔ x = s ∨ x ∈ l := by
  induction l with
  | nil => simp [insTok]
  | cons t rest ih =>
    simp only [insTok]
    by_cases h1 : lexLt s t = true
    · rw [if_pos h1]
      simp [List.mem_cons]
    · rw [Bool.not_eq_true] at h1
      rw [if_neg (by simp [h1])]
      by_cases h2 : lexLt t s = true
      · rw [if_pos h2]
        simp [List.mem_cons, ih]
        tauto
      · rw [Bool.not_eq_true] at h2
        rw [if_neg (by simp [h2])]
        have := lexLt_eq_of_not h2 h1
        subst this
        simp [List.mem_cons]

theorem pairwise_insTok {s : List Char} {l : List (List Char)}
    (h : List.Pairwise (fun a b => lexLt a b = true) l) :
    List.Pairwise (fun a b => lexLt a b = true) (insTok s l) := by
  induction l with
  | nil => simp [insTok]
  | cons t rest ih =>
    rw [List.pairwise_cons] at h
    simp only [insTok]
    by_cases h1 : lexLt s t = true
    · rw [if_pos h1]
      refine List.Pairwise.cons ?_ (List.Pairwise.cons h.1 h.2)
      intro b hb
      rcases List.mem_cons.mp hb with hb | hb
      · subst hb; exact h1
      · exact lexLt_trans h1 (h.1 b hb)
    · rw [Bool.not_eq_true] at h1
      rw [if_neg (by simp [h1])]
      by_cases h2 : lexLt t s = true
      · rw [if_pos h2]
        refine List.Pairwise.cons ?_ (ih h.2)
        intro b hb
        rcases mem_insTok.mp hb with hb | hb
        · subst hb; exact h2
        · exact h.1 b hb
      · rw [Bool.not_eq_true] at h2
        rw [if_neg (by simp [h2])]
        exact List.Pairwise.cons h.1 h.2

theorem mem_sortDedup {x : List Char} {l : List (List Char)} :
    x ∈ sortDedup l ↔ x ∈ l := by
  induction l with
  | nil => simp [sortDedup]
  | cons t rest ih =>
    simp only [sortDedup, List.foldr_cons]
    rw [mem_insTok]
    simp only [sortDedup] at ih
    rw [ih, List.mem_cons]

theorem pairwise_sortDedup (l : List (List Char)) :
    List.Pairwise (fun a b => lexLt a b = true) (sortDedup l) := by
  induction l with
  | nil => simp [sortDedup]
  | cons t rest ih => exact pairwise_insTok ih

/-- Two strictly sorted lists with the same members are equal: this is
what makes `sorted(set(l))` independent of the enumeration order of the
set. -/
theorem sorted_ext {l1 l2 : List (List Char)}
    (s1 : List.Pairwise (fun a b => lexLt a b = true) l1)
    (s2 : List.Pairwise (fun a b => lexLt a b = true) l2)
    (hmem : ∀ x, x ∈ l1 ↔ x ∈ l2) : l1 = l2 := by
  induction l1 generalizing l2 with
  | nil =>
    cases l2 with
    | nil => rfl
    | cons b t => exact absurd ((hmem b).mpr (List.mem_cons_self b t)) (by simp)
  | cons a t1 ih =>
    cases l2 with
    | nil => exact absurd ((hmem a).mp (List.mem_cons_self a t1)) (by simp)
    | cons b t2 =>
      rw [List.pairwise_cons] at s1 s2
      have hab : a = b := by
        rcases List.mem_cons.mp ((hmem a).mp (List.mem_cons_self a t1)) with h | h
        · exact h
        · rcases List.mem_cons.mp ((hmem b).mpr (List.mem_cons_self b t2)) with h2 | h2
          · exact h2.symm
          · have hba := s1.1 b h2
            have hab := s2.1 a h
            have := lexLt_asymm hba
            rw [this] at hab
            exact absurd hab (by simp)
      subst hab
      have hmem2 : ∀ x, x ∈ t1 ↔ x ∈ t2 := by
        intro x
        constructor
        · intro hx
          rcases List.mem_cons.mp ((hmem x).mp (List.mem_cons_of_mem a hx)) with h | h
          · subst h
            have := s1.1 x hx
            rw [lexLt_irrefl] at this
            exact absurd this (by simp)
          · exact h
        · intro hx
          rcases List.mem_cons.mp ((hmem x).mpr (List.mem_cons_of_mem a hx)) with h | h
          · subst h
            have := s2.1 x hx
            rw [lexLt_irrefl] at this
            exact absurd this (by simp)
          · exact h
      rw [ih s1.2 s2.2 hmem2]

/-! ### Dictionary lemmas -/

theorem lastIndexOf_eq_none_iff {v : List (List Char)} {s : List Char} :
    lastIndexOf v s = none ↔ s ∉ v := by
  induction v with
  | nil => simp [lastIndexOf]
  | cons t rest ih =>
    simp only [lastIndexOf]
    cases h : lastIndexOf rest s with
    | some i =>
      simp only [reduceCtorEq, false_iff]
      intro hc
      exact absurd (ih.mpr (by simp at hc; tauto)) (by simp [h])
    | none =>
      by_cases ht : t = s
      · simp [ht]
      · simp [ht, List.mem_cons, ih.mp h, Ne.symm ht]

theorem lastIndexOf_getElem {v : List (List Char)} {s : List Char} {i : Nat}
    (h : lastIndexOf v s = some i) : v[i]? = some s := by
  induction v generalizing i with
  | nil => simp [lastIndexOf] at h
  | cons t rest ih =>
    simp only [lastIndexOf] at h
    cases h2 : lastIndexOf rest s with
    | some j =>
      rw [h2] at h
      injection h with h
      subst h
      simpa using ih h2
    | none =>
      rw [h2] at h
      by_cases ht : t = s
      · rw [if_pos ht] at h
        injection h with h
        subst h
        simpa using ht
      · rw [if_neg ht] at h
        exact absurd h (by simp)

theorem lastIndexOf_lt_length {v : List (List Char)} {s : List Char} {i : Nat}
    (h : lastIndexOf v s = some i) : i < v.length := by
  have := lastIndexOf_getElem h
  exact (List.getElem?_eq_some_iff.mp this).1

theorem lastIndexOf_append_some {l r : List (List Char)} {s : List Char}
    {i : Nat} (h : lastIndexOf r s = some i) :
    lastIndexOf (l ++ r) s = some (l.length + i) := by
  induction l with
  | nil => simpa using h
  | cons t rest ih =>
    simp only [List.cons_append, lastIndexOf, List.append_eq, ih,
      List.length_cons]
    congr 1
    omega

theorem lastIndexOf_append_none {l r : List (List Char)} {s : List Char}
    (h : lastIndexOf r s = none) :
    lastIndexOf (l ++ r) s = lastIndexOf l s := by
  induction l with
  | nil => simpa using h
  | cons t rest ih =>
    simp only [List.cons_append, lastIndexOf, List.append_eq, ih]

theorem strToInt_of_intToStr {v : List (List Char)} {i : Nat} {s : List Char}
    (h : intToStr v i = some s) : strToInt v s = some i := by
  simp only [intToStr] at h
  cases hv : v[i]? with
  | none => rw [hv] at h; exact absurd h (by simp)
  | some t =>
    rw [hv] at h
    change (if strToInt v t = some i then some t else none) = some s at h
    by_cases ht : strToInt v t = some i
    · rw [if_pos ht] at h
      injection h with h
      subst h
      exact ht
    · rw [if_neg ht] at h
      exact absurd h (by simp)

theorem intToStr_of_strToInt {v : List (List Char)} {s : List Char} {i : Nat}
    (h : strToInt v s = some i) : intToStr v i = some s := by
  simp [intToStr, lastIndexOf_getElem (h : lastIndexOf v s = some i), h]

/-! ### Classification of the tokens produced by `split` -/

/-- A word character: neither splitting punctuation nor whitespace. -/
def isWordChar (c : Char) : Bool := !(isPunct c) && !(isWS c)

/-- No two adjacent hyphens (a `--` inside a token is impossible,
since `--` is a separator). -/
def noDD : List Char → Bool
  | [] => true
  | [_] => true
  | c :: d :: rest => !(c = '-' && d = '-') && noDD (d :: rest)

/-- A word token: nonempty, all word characters, no `--` inside. -/
def isWordTok (t : List Char) : Bool :=
  !t.isEmpty && t.all isWordChar && noDD t

/-- A single punctuation character from the splitting class. -/
def isPunctTok : List Char → Bool
  | [c] => isPunct c
  | _ => false

/-- Every token emitted by `split` has one of three shapes: a splitting
punctuation singleton, the separator `--`, or a word token. -/
def isTokenB (t : List Char) : Bool :=
  isPunctTok t || t == ddTok || isWordTok t

theorem isWordTok_singleton {c : Char} (h1 : isPunct c = false)
    (h2 : isWS c = false) : isWordTok [c] = true := by
  simp [isWordTok, isWordChar, noDD, h1, h2]

theorem noDD_tail {c : Char} {t : List Char} (h : noDD (c :: t) = true) :
    noDD t = true := by
  cases t with
  | nil => rfl
  | cons d rest =>
    simp only [noDD, Bool.and_eq_true] at h
    exact h.2

theorem split_sound_aux : ∀ n (s : List Char), s.length ≤ n →
    (∀ t ∈ split s, isTokenB t = true) ∧
    (startsWordB s = true →
      ∃ u us, split s = u :: us ∧ isWordTok u = true ∧ u.head? = s.head?) := by
  intro n
  induction n with
  | zero =>
    intro s hs
    have : s = [] := List.eq_nil_of_length_eq_zero (Nat.le_zero.mp hs)
    subst this
    refine ⟨by simp [split], by simp [startsWordB]⟩
  | succ n ih =>
    intro s hs
    cases s with
    | nil => refine ⟨by simp [split], by simp [startsWordB]⟩
    | cons c rest =>
      have hrest : rest.length ≤ n := by
        simp only [List.length_cons] at hs; omega
      by_cases hp : isPunct c = true
      · have heq : split (c :: rest) = [c] :: split rest := by
          rw [split_cons, if_pos hp]
        have hsw : startsWordB (c :: rest) = false := by
          cases rest <;> simp [startsWordB, hp]
        refine ⟨?_, by simp [hsw]⟩
        intro t ht
        rw [heq] at ht
        rcases List.mem_cons.mp ht with h | h
        · subst h; simp [isTokenB, isPunctTok, hp]
        · exact ((ih rest hrest).1) t h
      · rw [Bool.not_eq_true] at hp
        by_cases hw : isWS c = true
        · have heq : split (c :: rest) = split rest := by
            rw [split_cons, if_neg (by simp [hp]), if_pos hw]
          have hsw : startsWordB (c :: rest) = false := by
            cases rest <;> simp [startsWordB, hw]
          refine ⟨?_, by simp [hsw]⟩
          intro t ht
          rw [heq] at ht
          exact ((ih rest hrest).1) t ht
        · rw [Bool.not_eq_true] at hw
          by_cases hd : (c = '-' && rest.head? = some '-') = true
          · have heq : split (c :: rest) = ddTok :: split rest.tail := by
              rw [split_cons, if_neg (by simp [hp]), if_neg (by simp [hw]),
                if_pos hd]
            simp only [Bool.and_eq_true, decide_eq_true_eq] at hd
            have hsw : startsWordB (c :: rest) = false := by
              cases rest with
              | nil => simp at hd
              | cons d r2 =>
                simp only [List.head?_cons, Option.some.injEq] at hd
                simp [startsWordB, hd.1, hd.2]
            refine ⟨?_, by simp [hsw]⟩
            intro t ht
            rw [heq] at ht
            rcases List.mem_cons.mp ht with h | h
            · subst h; simp [isTokenB]
            · have : rest.tail.length ≤ n := by
                rw [List.length_tail]
                omega
              exact ((ih rest.tail this).1) t h
          · rw [Bool.not_eq_true] at hd
            have heq : split (c :: rest) =
                glue c (startsWordB rest) (split rest) := by
              rw [split_cons, if_neg (by simp [hp]), if_neg (by simp [hw]),
                if_neg (by simp [hd])]
            by_cases hsr : startsWordB rest = true
            · obtain ⟨u, us, hu1, hu2, hu3⟩ := (ih rest hrest).2 hsr
              have hglue : split (c :: rest) = (c :: u) :: us := by
                rw [heq, hsr, hu1]; rfl
              have hcu : isWordTok (c :: u) = true := by
                simp only [isWordTok, Bool.and_eq_true] at hu2 ⊢
                refine ⟨⟨by simp, ?_⟩, ?_⟩
                · simp only [List.all_cons, Bool.and_eq_true]
                  exact ⟨by simp [isWordChar, hp, hw], hu2.1.2⟩
                · cases u with
                  | nil => exact absurd hu2.1.1 (by simp)
                  | cons d u2 =>
                    simp only [noDD, Bool.and_eq_true]
                    refine ⟨?_, hu2.2⟩
                    cases rest with
                    | nil => simp [startsWordB] at hsr
                    | cons e r2 =>
                      simp only [List.head?_cons, Option.some.injEq] at hu3
                      subst hu3
                      by_cases hc : c = '-'
                      · have he : ¬ (d = '-') := by
                          intro he
                          rw [hc, he] at hd
                          simp at hd
                        simp [hc, he]
                      · simp [hc]
              refine ⟨?_, ?_⟩
              · intro t ht
                rw [hglue] at ht
                rcases List.mem_cons.mp ht with h | h
                · subst h
                  simp [isTokenB, hcu]
                · refine ((ih rest hrest).1) t ?_
                  rw [hu1]
                  exact List.mem_cons_of_mem u h
              · intro _
                exact ⟨c :: u, us, hglue, hcu, by simp⟩
            · rw [Bool.not_eq_true] at hsr
              have hglue : split (c :: rest) = [c] :: split rest := by
                rw [heq, hsr]; rfl
              refine ⟨?_, ?_⟩
              · intro t ht
                rw [hglue] at ht
                rcases List.mem_cons.mp ht with h | h
                · subst h
                  simp [isTokenB, isWordTok_singleton hp hw]
                · exact ((ih rest hrest).1) t h
              · intro _
                exact ⟨[c], split rest, hglue, isWordTok_singleton hp hw,
                  by simp⟩

/-- Every token produced by the pre-tokenizer is a punctuation
singleton, the separator `--`, or a word token. -/
theorem split_tokens {s t : List Char} (h : t ∈ split s) :
    isTokenB t = true :=
  (split_sound_aux s.length s le_rfl).1 t h

/-! ### Re-splitting decoded text -/

/-- Text that terminates a word token: empty, or starting with
whitespace or splitting punctuation. -/
def breaksWord : List Char → Bool
  | [] => true
  | c :: _ => isWS c || isPunct c

theorem isDecPunct_isPunct {c : Char} (h : isDecPunct c = true) :
    isPunct c = true := by
  simp only [isDecPunct, isPunct, Bool.or_eq_true, decide_eq_true_eq] at h ⊢
  tauto

theorem tokenB_ne_nil {t : List Char} (h : isTokenB t = true) : t ≠ [] := by
  intro hc
  subst hc
  simp [isTokenB, isPunctTok, ddTok, isWordTok] at h

theorem startsWordB_false_of_breaks {r : List Char}
    (h : breaksWord r = true) : startsWordB r = false := by
  cases r with
  | nil => rfl
  | cons x r2 =>
    simp only [breaksWord, Bool.or_eq_true] at h
    cases r2 with
    | nil =>
      rcases h with h | h <;> simp [startsWordB, h]
    | cons y r3 =>
      rcases h with h | h <;> simp [startsWordB, h]

theorem breaksWord_head_ne_dash {r : List Char} (h : breaksWord r = true) :
    r.head? ≠ some '-' := by
  cases r with
  | nil => simp
  | cons x r2 =>
    simp only [breaksWord, Bool.or_eq_true] at h
    simp only [List.head?_cons]
    intro hx
    injection hx with hx
    subst hx
    rcases h with h | h <;> exact absurd h (by decide)

theorem startsWordB_word_append {w r : List Char} (hw : isWordTok w = true)
    (hr : breaksWord r = true) : startsWordB (w ++ r) = true := by
  simp only [isWordTok, Bool.and_eq_true] at hw
  obtain ⟨⟨hne, hall⟩, hdd⟩ := hw
  cases w with
  | nil => simp at hne
  | cons c w2 =>
    have hc : isWordChar c = true := by
      simp only [List.all_cons, Bool.and_eq_true] at hall
      exact hall.1
    simp only [isWordChar, Bool.and_eq_true, Bool.not_eq_true'] at hc
    cases w2 with
    | nil =>
      cases r with
      | nil => simp [startsWordB, hc.1, hc.2]
      | cons x r2 =>
        have hx : ¬ (c = '-' ∧ x = '-') := by
          rintro ⟨h1, h2⟩
          exact absurd (by simp [h2] : List.head? (x :: r2) = some '-')
            (breaksWord_head_ne_dash hr)
        simp only [List.cons_append, List.nil_append, startsWordB]
        simp [hc.1, hc.2]
        tauto
    | cons d w3 =>
      have hcd : ¬ (c = '-' ∧ d = '-') := by
        rintro ⟨h1, h2⟩
        rw [h1, h2] at hdd
        simp [noDD] at hdd
      simp only [List.cons_append, startsWordB]
      simp [hc.1, hc.2]
      tauto

theorem split_word_append {w r : List Char} (hw : isWordTok w = true)
    (hr : breaksWord r = true) : split (w ++ r) = w :: split r := by
  induction w with
  | nil => simp [isWordTok] at hw
  | cons c w2 ih =>
    have hw' := hw
    simp only [isWordTok, Bool.and_eq_true] at hw'
    obtain ⟨⟨hne, hall⟩, hdd⟩ := hw'
    have hc : isWordChar c = true := by
      simp only [List.all_cons, Bool.and_eq_true] at hall
      exact hall.1
    simp only [isWordChar, Bool.and_eq_true, Bool.not_eq_true'] at hc
    cases w2 with
    | nil =>
      have hdash : (c = '-' && (List.head? r = some '-' : Bool)) = false := by
        by_cases hcc : c = '-'
        · have := breaksWord_head_ne_dash hr
          simp [hcc, this]
        · simp [hcc]
      rw [List.cons_append, List.nil_append, split_cons,
        if_neg (by simp [hc.1]), if_neg (by simp [hc.2]),
        if_neg (by simp_all), startsWordB_false_of_breaks hr]
      rfl
    | cons d w3 =>
      have hw2 : isWordTok (d :: w3) = true := by
        simp only [isWordTok, Bool.and_eq_true]
        refine ⟨⟨by simp, ?_⟩, noDD_tail hdd⟩
        simp only [List.all_cons, Bool.and_eq_true] at hall
        simp only [List.all_cons, Bool.and_eq_true]
        exact hall.2
      have hcd : ¬ (c = '-' ∧ d = '-') := by
        rintro ⟨h1, h2⟩
        rw [h1, h2] at hdd
        simp [noDD] at hdd
      have hdash : (c = '-' && (List.head? ((d :: w3) ++ r) = some '-' : Bool))
          = false := by
        by_cases hcc : c = '-'
        · have : ¬ (d = '-') := fun h2 => hcd ⟨hcc, h2⟩
          simp [hcc, this]
        · simp [hcc]
      rw [List.cons_append, split_cons, if_neg (by simp [hc.1]),
        if_neg (by simp [hc.2]), if_neg (by simp_all),
        startsWordB_word_append hw2 hr, ih hw2]
      rfl

theorem split_token_append {t r : List Char} (ht : isTokenB t = true)
    (hr : breaksWord r = true) : split (t ++ r) = t :: split r := by
  simp only [isTokenB, Bool.or_eq_true] at ht
  rcases ht with (ht | ht) | ht
  · cases t with
    | nil => simp [isPunctTok] at ht
    | cons c t2 =>
      cases t2 with
      | nil =>
        simp only [isPunctTok] at ht
        rw [List.cons_append, List.nil_append, split_cons, if_pos ht]
      | cons d t3 => simp [isPunctTok] at ht
  · have : t = ddTok := by simpa using ht
    subst this
    rw [show ddTok ++ r = '-' :: '-' :: r by rfl, split_cons,
      if_neg (by decide), if_neg (by decide), if_pos (by simp)]
    rfl
  · exact split_word_append ht hr

/-- Space-aware concatenation: the net effect of `decode`'s
space-join followed by the space-deleting substitution, on
whitespace-free nonempty symbols: a single space separates consecutive
symbols except before a symbol starting with a `[,.:;?!"()\']`
character. -/
def condJoin : List (List Char) → List Char
  | [] => []
  | [t] => t
  | t :: t2 :: ts =>
    t ++ (if isDecPunct (t2.headD ' ') then [] else [' ']) ++
      condJoin (t2 :: ts)

theorem joinSp_head {t2 : List Char} {ts : List (List Char)}
    (h : t2 ≠ []) : (joinSp (t2 :: ts)).head? = t2.head? := by
  cases t2 with
  | nil => exact absurd rfl h
  | cons x t2' =>
    cases ts with
    | nil => rfl
    | cons t3 ts2 => rfl

theorem removeSpP_append {cls : Char → Bool} {t r : List Char}
    (h : ∀ c ∈ t, isWS c = false) :
    removeSpP cls (t ++ r) = t ++ removeSpP cls r := by
  induction t with
  | nil => rfl
  | cons c t2 ih =>
    have hc : isWS c = false := h c (List.mem_cons_self c t2)
    rw [List.cons_append, removeSpP, if_neg (by simp [hc])]
    rw [ih (fun x hx => h x (List.mem_cons_of_mem c hx))]
    rfl

theorem afterRunP_of_head {cls : Char → Bool} {r : List Char} {x : Char}
    (h : r.head? = some x) (hx : isWS x = false) :
    afterRunP cls r = cls x := by
  cases r with
  | nil => simp at h
  | cons y r2 =>
    simp only [List.head?_cons] at h
    injection h with h
    subst h
    simp [afterRunP, hx]

/-- On whitespace-free nonempty symbols, the decode pipeline
`join-with-spaces then delete spaces before punctuation` computes
`condJoin`. -/
theorem removeSpP_joinSp {ss : List (List Char)}
    (h : ∀ t ∈ ss, t ≠ [] ∧ ∀ c ∈ t, isWS c = false) :
    removeSpP isDecPunct (joinSp ss) = condJoin ss := by
  induction ss with
  | nil => rfl
  | cons t ts ih =>
    cases ts with
    | nil =>
      have ht := h t (List.mem_cons_self t [])
      have h2 := @removeSpP_append isDecPunct t [] ht.2
      simpa [joinSp, condJoin, removeSpP] using h2
    | cons t2 ts2 =>
      have ht := h t (List.mem_cons_self t _)
      have ht2 := h t2 (List.mem_cons_of_mem t (List.mem_cons_self t2 _))
      have hx : ∃ x t2', t2 = x :: t2' := by
        cases t2 with
        | nil => exact absurd rfl ht2.1
        | cons x t2' => exact ⟨x, t2', rfl⟩
      obtain ⟨x, t2', hxeq⟩ := hx
      have hxws : isWS x = false := ht2.2 x (by rw [hxeq]; simp)
      have hhead : (joinSp (t2 :: ts2)).head? = some x := by
        rw [joinSp_head ht2.1, hxeq]
        rfl
      have hrest := ih (fun u hu => h u (List.mem_cons_of_mem t hu))
      rw [show joinSp (t :: t2 :: ts2) = t ++ ' ' :: joinSp (t2 :: ts2)
          from rfl,
        removeSpP_append ht.2, removeSpP,
        afterRunP_of_head hhead hxws]
      by_cases hp : isDecPunct x = true
      · rw [if_pos (by simp [hp, isWS]), hrest]
        show _ = condJoin (t :: t2 :: ts2)
        rw [condJoin, hxeq]
        simp [hp]
      · rw [Bool.not_eq_true] at hp
        rw [if_neg (by simp [hp]), hrest]
        show _ = condJoin (t :: t2 :: ts2)
        rw [condJoin, hxeq]
        simp [hp]

theorem isPunct_not_WS {c : Char} (h : isPunct c = true) : isWS c = false := by
  by_contra hc
  rw [Bool.not_eq_false] at hc
  simp only [isWS, Bool.or_eq_true, decide_eq_true_eq] at hc
  rcases hc with ((((h2 | h2) | h2) | h2) | h2) | h2 <;> subst h2 <;>
    simp [isPunct] at h

/-- Tokens have no whitespace and are nonempty. -/
theorem tokenB_noWS {t : List Char} (h : isTokenB t = true) :
    t ≠ [] ∧ ∀ c ∈ t, isWS c = false := by
  refine ⟨tokenB_ne_nil h, ?_⟩
  simp only [isTokenB, Bool.or_eq_true] at h
  rcases h with (h | h) | h
  · cases t with
    | nil => simp [isPunctTok] at h
    | cons c t2 =>
      cases t2 with
      | nil =>
        simp only [isPunctTok] at h
        intro x hx
        rcases List.mem_cons.mp hx with hx | hx
        · subst hx
          exact isPunct_not_WS h
        · simp at hx
      | cons d t3 => simp [isPunctTok] at h
  · have : t = ddTok := by simpa using h
    subst this
    intro c hc
    rcases List.mem_cons.mp hc with hc | hc
    · subst hc; rfl
    · simp only [ddTok, List.mem_singleton] at hc
      subst hc; rfl
  · simp only [isWordTok, Bool.and_eq_true] at h
    intro c hc
    have := List.all_eq_true.mp h.1.2 c hc
    simp only [isWordChar, Bool.and_eq_true, Bool.not_eq_true'] at this
    exact this.2

/-- The head of a token is never a word-splitting trigger from within:
`condJoin` of tokens re-splits to exactly the token list. -/
theorem split_condJoin {ts : List (List Char)}
    (h : ∀ t ∈ ts, isTokenB t = true) : split (condJoin ts) = ts := by
  induction ts with
  | nil => simp [condJoin, split]
  | cons t ts2 ih =>
    cases ts2 with
    | nil =>
      have ht := h t (List.mem_cons_self t [])
      have h2 := split_token_append (r := ([] : List Char)) ht (by rfl)
      simp only [List.append_nil] at h2
      simp only [condJoin]
      rw [h2]
      simp [split]
    | cons t2 ts3 =>
      have ht := h t (List.mem_cons_self t _)
      have ht2 := h t2 (List.mem_cons_of_mem t (List.mem_cons_self t2 _))
      have hrest := ih (fun u hu => h u (List.mem_cons_of_mem t hu))
      obtain ⟨x, t2', hxeq⟩ : ∃ x t2', t2 = x :: t2' := by
        cases t2 with
        | nil => exact absurd rfl (tokenB_ne_nil ht2)
        | cons x t2' => exact ⟨x, t2', rfl⟩
      rw [condJoin]
      by_cases hp : isDecPunct (t2.headD ' ') = true
      · have hx : isDecPunct x = true := by rw [hxeq] at hp; simpa using hp
        rw [if_pos hp]
        have hbr : breaksWord (condJoin (t2 :: ts3)) = true := by
          have hhead : (condJoin (t2 :: ts3)).head? = some x := by
            cases ts3 with
            | nil => rw [hxeq]; rfl
            | cons t3 ts4 =>
              rw [condJoin, hxeq]
              rfl
          cases hcj : condJoin (t2 :: ts3) with
          | nil => rfl
          | cons y r2 =>
            rw [hcj] at hhead
            simp only [List.head?_cons] at hhead
            injection hhead with hhead
            subst hhead
            simp [breaksWord, isDecPunct_isPunct hx]
        rw [show t ++ [] ++ condJoin (t2 :: ts3) = t ++ condJoin (t2 :: ts3)
            by simp,
          split_token_append ht hbr, hrest]
      · rw [if_neg hp]
        have hbr : breaksWord (' ' :: condJoin (t2 :: ts3)) = true := by
          simp [breaksWord, isWS]
        rw [show t ++ [' '] ++ condJoin (t2 :: ts3) =
            t ++ (' ' :: condJoin (t2 :: ts3)) by simp,
          split_token_append ht hbr]
        congr 1
        rw [split_cons, if_neg (by decide), if_pos (by decide)]
        exact hrest

/-! ### Vocabulary facts -/

theorem eot_isTokenB : isTokenB eotTok = true := by decide

theorem unk_isTokenB : isTokenB unkTok = true := by decide

theorem allTokens_tokens {corpus t : List Char}
    (h : t ∈ allTokens corpus) : isTokenB t = true := by
  simp only [allTokens, List.mem_append] at h
  rcases h with h | h
  · exact split_tokens (mem_sortDedup.mp h)
  · rcases List.mem_cons.mp h with h | h
    · subst h; exact eot_isTokenB
    · simp only [List.mem_singleton] at h
      subst h; exact unk_isTokenB

theorem strToInt_eot (corpus : List Char) :
    strToInt (allTokens corpus) eotTok = some (allWords corpus).length := by
  have h2 : lastIndexOf [eotTok, unkTok] eotTok = some 0 := by decide
  have := lastIndexOf_append_some (l := allWords corpus) h2
  simpa [allTokens, strToInt] using this

theorem strToInt_unk (corpus : List Char) :
    strToInt (allTokens corpus) unkTok =
      some ((allWords corpus).length + 1) := by
  have h2 : lastIndexOf [eotTok, unkTok] unkTok = some 1 := by decide
  have := lastIndexOf_append_some (l := allWords corpus) h2
  simpa [allTokens, strToInt] using this

theorem strToInt_allWords_of_allTokens_none {corpus s : List Char}
    (h : strToInt (allTokens corpus) s = none) :
    strToInt (allWords corpus) s = none := by
  simp only [strToInt, allTokens] at h ⊢
  rw [lastIndexOf_eq_none_iff] at h ⊢
  intro hc
  exact h (List.mem_append_left _ hc)

/-! ### `mapO` lemmas -/

theorem mapO_some_of_forall {A B : Type} {f : A → Option B} {l : List A}
    (h : ∀ x ∈ l, (f x).isSome = true) : (mapO f l).isSome = true := by
  induction l with
  | nil => rfl
  | cons x l2 ih =>
    have hx := h x (List.mem_cons_self x l2)
    have hl := ih (fun y hy => h y (List.mem_cons_of_mem x hy))
    simp only [mapO]
    cases hfx : f x with
    | none => rw [hfx] at hx; simp at hx
    | some y =>
      cases hml : mapO f l2 with
      | none => rw [hml] at hl; simp at hl
      | some ys => rfl

theorem mapO_mem {A B : Type} {f : A → Option B} {l : List A}
    {ys : List B} (h : mapO f l = some ys) :
    ∀ y ∈ ys, ∃ x, x ∈ l ∧ f x = some y := by
  induction l generalizing ys with
  | nil =>
    simp only [mapO] at h
    injection h with h
    subst h
    simp
  | cons x l2 ih =>
    simp only [mapO] at h
    cases hfx : f x with
    | none => rw [hfx] at h; exact absurd h (by simp)
    | some z =>
      rw [hfx] at h
      cases hml : mapO f l2 with
      | none => rw [hml] at h; exact absurd h (by simp)
      | some zs =>
        rw [hml] at h
        injection h with h
        subst h
        intro y hy
        rcases List.mem_cons.mp hy with hy | hy
        · subst hy
          exact ⟨x, List.mem_cons_self x l2, hfx⟩
        · obtain ⟨u, hu1, hu2⟩ := ih hml y hy
          exact ⟨u, List.mem_cons_of_mem x hu1, hu2⟩

theorem mapO_none_of_mem {A B : Type} {f : A → Option B} {l : List A}
    {x : A} (hx : x ∈ l) (h : f x = none) : mapO f l = none := by
  induction l with
  | nil => simp at hx
  | cons y l2 ih =>
    simp only [mapO]
    rcases List.mem_cons.mp hx with hxy | hxy
    · subst hxy
      rw [h]
    · rw [ih hxy]
      cases f y <;> rfl

/-! ### The decode-then-encode round trip -/

theorem intToStr_mem {v : List (List Char)} {i : Nat} {s : List Char}
    (h : intToStr v i = some s) : s ∈ v := by
  have h2 := strToInt_of_intToStr h
  exact List.getElem?_mem (lastIndexOf_getElem h2)

theorem encode_syms_of_decode_syms {v : List (List Char)} {ids : List Nat}
    {ss : List (List Char)} (h : mapO (intToStr v) ids = some ss) :
    mapO (strToInt v) (ss.map (subUnk v)) = some ids := by
  induction ids generalizing ss with
  | nil =>
    simp only [mapO] at h
    injection h with h
    subst h
    rfl
  | cons i ids2 ih =>
    simp only [mapO] at h
    cases hfi : intToStr v i with
    | none => rw [hfi] at h; exact absurd h (by simp)
    | some s =>
      rw [hfi] at h
      cases hml : mapO (intToStr v) ids2 with
      | none => rw [hml] at h; exact absurd h (by simp)
      | some ss2 =>
        rw [hml] at h
        injection h with h
        subst h
        have hsi := strToInt_of_intToStr hfi
        have hsub : subUnk v s = s := by
          simp [subUnk, hsi]
        simp only [List.map_cons, mapO, hsub, hsi, ih hml]

/-- Core round-trip fact: whatever `SimpleTokenizerV2.decode` produces,
`SimpleTokenizerV2.encode` maps back to the very same id sequence. -/
theorem encodeV2_decodeV2_aux {corpus : List Char} {ids : List Nat}
    {t : List Char} (h : decodeV2 (allTokens corpus) ids = some t) :
    encodeV2 (allTokens corpus) t = some ids := by
  simp only [decodeV2] at h
  cases hm : mapO (intToStr (allTokens corpus)) ids with
  | none => rw [hm] at h; exact absurd h (by simp)
  | some ss =>
    rw [hm] at h
    simp only [Option.map_some'] at h
    injection h with h
    have hss : ∀ s ∈ ss, isTokenB s = true := by
      intro s hs
      obtain ⟨i, _, hi⟩ := mapO_mem hm s hs
      exact allTokens_tokens (intToStr_mem hi)
    have hjoin : removeSpP isDecPunct (joinSp ss) = condJoin ss :=
      removeSpP_joinSp (fun s hs => tokenB_noWS (hss s hs))
    have hsplit : split t = ss := by
      rw [← h, hjoin]
      exact split_condJoin hss
    simp only [encodeV2, hsplit]
    exact encode_syms_of_decode_syms hm

/-! ### Claim theorems -/

/-- Claim C9: `SimpleTokenizerV2.encode` is total: for every corpus and
every input text encoding succeeds, because every pre-tokenized symbol
missing from `str_to_int` is replaced by `"<|unk|>"`, which is always in
the vocabulary built with the appended special tokens. -/
theorem c9_encodeV2_total (corpus text : List Char) :
    (encodeV2 (allTokens corpus) text).isSome = true := by
  apply mapO_some_of_forall
  intro x hx
  obtain ⟨u, _, hxu⟩ := List.mem_map.mp hx
  subst hxu
  by_cases h : (strToInt (allTokens corpus) u).isSome = true
  · simp [subUnk, h]
  · rw [Bool.not_eq_true] at h
    simp only [subUnk, h, Bool.false_eq_true, if_false,
      strToInt_unk corpus, Option.isSome_some]

/-- Claim C2 counterexample: `SimpleTokenizerV2.encode` has no
`allowed_special` parameter and cannot fail on special-token text: with
the vocabulary trained on "a b", encoding the bare special token
`"<|endoftext|>"` succeeds (no `DisallowedSpecialToken` failure occurs)
and yields its vocabulary id. -/
theorem c2_cex :
    encodeV2 (allTokens "a b".toList) eotTok = some [2] := by decide

/-- Claim C2 (amended): `SimpleTokenizerV2.encode` accepts no
`allowed_special` set and never rejects special-token text: for every
corpus, encoding the literal text `"<|endoftext|>"` succeeds and
returns exactly the special token's own vocabulary id. -/
theorem mapO_singleton {A B : Type} {f : A → Option B} {x : A} {y : B}
    (h : f x = some y) : mapO f [x] = some [y] := by
  simp [mapO, h]

theorem c2_special_always_encoded (corpus : List Char) :
    encodeV2 (allTokens corpus) eotTok =
      some [(allWords corpus).length] := by
  have hsplit : split eotTok = [eotTok] := by rfl
  have hsub : subUnk (allTokens corpus) eotTok = eotTok := by
    simp [subUnk, strToInt_eot corpus]
  simp only [encodeV2, hsplit, List.map_cons, List.map_nil, hsub]
  exact mapO_singleton (strToInt_eot corpus)

/-- Claim C7: vocabulary construction is deterministic: the vocabulary
depends only on the set of pre-tokenized corpus symbols (so the
enumeration order of Python's `set` is immaterial, and two builds from
an identical corpus agree); any two corpora with the same symbol set
yield identical symbol-to-id assignments. -/
theorem c7_vocab_deterministic (c1 c2 : List Char)
    (h1 : ∀ s ∈ split c1, s ∈ split c2)
    (h2 : ∀ s ∈ split c2, s ∈ split c1) :
    allTokens c1 = allTokens c2 := by
  unfold allTokens allWords
  congr 1
  refine sorted_ext (pairwise_sortDedup _) (pairwise_sortDedup _) ?_
  intro x
  rw [mem_sortDedup, mem_sortDedup]
  exact ⟨fun hx => h1 x hx, fun hx => h2 x hx⟩

/-- Claim C7 witness: two corpora with the same symbol set ("b a" and
"a  b") produce the same vocabulary. -/
theorem c7_vocab_deterministic_witness :
    allTokens "b a".toList = allTokens "a  b".toList :=
  c7_vocab_deterministic _ _ (by decide) (by decide)

theorem nodup_sortDedup (l : List (List Char)) : (sortDedup l).Nodup :=
  (pairwise_sortDedup l).imp (fun h heq => by
    subst heq
    rw [lexLt_irrefl] at h
    exact Bool.false_ne_true h)

theorem lastIndexOf_nodup_get {l : List (List Char)} (h : l.Nodup)
    (i : Nat) (hi : i < l.length) :
    lastIndexOf l (l.get ⟨i, hi⟩) = some i := by
  induction l generalizing i with
  | nil => simp at hi
  | cons t rest ih =>
    rw [List.nodup_cons] at h
    cases i with
    | zero =>
      have hnone : lastIndexOf rest t = none :=
        lastIndexOf_eq_none_iff.mpr h.1
      simp [lastIndexOf, hnone]
    | succ j =>
      have hj : j < rest.length := by
        simp only [List.length_cons] at hi; omega
      have hrec := ih h.2 j hj
      simp only [List.get_cons_succ]
      simp only [lastIndexOf]
      rw [show (rest.get ⟨j, hj⟩ : List Char) =
          rest.get ⟨j, hj⟩ from rfl] at hrec
      rw [hrec]

theorem lastIndexOf_pair_none {x : List Char} (h1 : x ≠ eotTok)
    (h2 : x ≠ unkTok) : lastIndexOf [eotTok, unkTok] x = none := by
  simp [lastIndexOf, Ne.symm h1, Ne.symm h2]

/-- Claim C5: vocabulary ids are assigned in increasing order starting
from 0 along the lexicographically sorted order of the distinct corpus
symbols, with the special tokens appended last and therefore receiving
the two largest ids. -/
theorem c5_vocab_order (corpus : List Char) :
    allTokens corpus = sortDedup (split corpus) ++ [eotTok, unkTok] ∧
    List.Pairwise (fun a b => lexLt a b = true) (allWords corpus) ∧
    (∀ s, s ∈ allWords corpus ↔ s ∈ split corpus) ∧
    strToInt (allTokens corpus) eotTok = some (allWords corpus).length ∧
    strToInt (allTokens corpus) unkTok =
      some ((allWords corpus).length + 1) ∧
    (∀ s i, strToInt (allTokens corpus) s = some i →
      i < (allWords corpus).length + 2) ∧
    (∀ i (hi : i < (allWords corpus).length),
      (allWords corpus).get ⟨i, hi⟩ ≠ eotTok →
      (allWords corpus).get ⟨i, hi⟩ ≠ unkTok →
      strToInt (allTokens corpus) ((allWords corpus).get ⟨i, hi⟩) =
        some i) := by
  refine ⟨rfl, pairwise_sortDedup _, fun s => mem_sortDedup,
    strToInt_eot corpus, strToInt_unk corpus, ?_, ?_⟩
  · intro s i h
    have := lastIndexOf_lt_length (h : lastIndexOf (allTokens corpus) s
      = some i)
    simpa [allTokens, allWords] using this
  · intro i hi hne1 hne2
    have hnone : lastIndexOf [eotTok, unkTok]
        ((allWords corpus).get ⟨i, hi⟩) = none :=
      lastIndexOf_pair_none hne1 hne2
    show lastIndexOf (allWords corpus ++ [eotTok, unkTok]) _ = some i
    rw [lastIndexOf_append_none hnone]
    exact lastIndexOf_nodup_get (nodup_sortDedup _) i hi

/-- Claim C5 witness: on the corpus "b a" the first sorted symbol "a"
gets id 0 and the special tokens get the largest ids 2 and 3. -/
theorem c5_vocab_order_witness :
    strToInt (allTokens "b a".toList)
      ((allWords "b a".toList).get ⟨0, by decide⟩) = some 0 :=
  (c5_vocab_order "b a".toList).2.2.2.2.2.2 0 (by decide) (by decide)
    (by decide)

/-- Claim C6 counterexample: the pre-tokenizer output CAN be empty: on
the nonempty input " " (one space) the split produces no symbols at
all, contradicting a "never empty" output sequence. -/
theorem c6_cex : split " ".toList = [] ∧ " ".toList ≠ [] := by decide

/-- Claim C6 (amended): the pre-tokenizer is a deterministic pure
function; every emitted symbol is nonempty and whitespace-free, and a
splitting punctuation character only ever occurs as its own
single-character symbol; however the output sequence itself is empty
when the input contains no non-whitespace characters. -/
theorem c6_split_symbols (text : List Char) :
    ∀ t ∈ split text, t ≠ [] ∧ (∀ c ∈ t, isWS c = false) ∧
      (∀ c ∈ t, isPunct c = true → t = [c]) := by
  intro t ht
  have htok := split_tokens ht
  have hnw := tokenB_noWS htok
  refine ⟨hnw.1, hnw.2, ?_⟩
  intro c hc hp
  simp only [isTokenB, Bool.or_eq_true] at htok
  rcases htok with (h | h) | h
  · cases t with
    | nil => simp at hc
    | cons c2 t2 =>
      cases t2 with
      | nil =>
        rcases List.mem_cons.mp hc with hc | hc
        · subst hc; rfl
        · simp at hc
      | cons c3 t3 => simp [isPunctTok] at h
  · have : t = ddTok := by simpa using h
    subst this
    have : c = '-' := by
      rcases List.mem_cons.mp hc with hc | hc
      · exact hc
      · simpa [ddTok] using hc
    subst this
    exact absurd hp (by decide)
  · simp only [isWordTok, Bool.and_eq_true] at h
    have := List.all_eq_true.mp h.1.2 c hc
    simp only [isWordChar, Bool.and_eq_true, Bool.not_eq_true'] at this
    rw [this.1] at hp
    exact absurd hp (by simp)

/-- Claim C6 witness: the symbol "a" of the split of "a." is nonempty,
whitespace-free, and contains no punctuation. -/
theorem c6_split_symbols_witness :
    ['a'] ≠ [] ∧ (∀ c ∈ ['a'], isWS c = false) ∧
      (∀ c ∈ ['a'], isPunct c = true → ['a'] = [c]) :=
  c6_split_symbols "a.".toList ['a'] (by decide)

/-- Claim C3: for a pre-tokenized symbol absent from the vocabulary:
`SimpleTokenizerV1.encode` (no unknown-token fallback) fails, while
`SimpleTokenizerV2.encode` (fallback configured) returns the
unknown-token id, and decoding that id yields the literal string
`"<|unk|>"`. -/
theorem c3_unknown_fallback (corpus text s : List Char)
    (hsplit : split text = [s])
    (habs : strToInt (allTokens corpus) s = none) :
    encodeV1 (allWords corpus) text = none ∧
    encodeV2 (allTokens corpus) text =
      some [(allWords corpus).length + 1] ∧
    decodeV2 (allTokens corpus) [(allWords corpus).length + 1] =
      some unkTok := by
  have habs1 : strToInt (allWords corpus) s = none :=
    strToInt_allWords_of_allTokens_none habs
  refine ⟨?_, ?_, ?_⟩
  · simp only [encodeV1, hsplit]
    exact mapO_none_of_mem (List.mem_cons_self s []) habs1
  · simp only [encodeV2, hsplit, List.map_cons, List.map_nil]
    have hsub : subUnk (allTokens corpus) s = unkTok := by
      simp [subUnk, habs]
    rw [hsub]
    exact mapO_singleton (strToInt_unk corpus)
  · simp only [decodeV2]
    rw [mapO_singleton (intToStr_of_strToInt (strToInt_unk corpus))]
    rfl

/-- Claim C3 witness: with the vocabulary of corpus "a", the unknown
symbol "b" makes V1 fail while V2 yields the unknown-token id 2, which
decodes to "<|unk|>". -/
theorem c3_unknown_fallback_witness :
    encodeV1 (allWords "a".toList) "b".toList = none ∧
    encodeV2 (allTokens "a".toList) "b".toList =
      some [(allWords "a".toList).length + 1] ∧
    decodeV2 (allTokens "a".toList) [(allWords "a".toList).length + 1] =
      some unkTok :=
  c3_unknown_fallback "a".toList "b".toList "b".toList (by decide)
    (by decide)

/-- Claim C1 counterexample: with the vocabulary trained on "a--b", the
text "a--b" is built entirely from vocabulary symbols, yet
decode(encode("a--b")) = "a -- b" ≠ "a--b": the round trip fails
because decode re-inserts spaces around "--". -/
theorem c1_cex :
    (split "a--b".toList).all
      (fun s => (strToInt (allTokens "a--b".toList) s).isSome) = true ∧
    encodeV2 (allTokens "a--b".toList) "a--b".toList = some [1, 0, 2] ∧
    decodeV2 (allTokens "a--b".toList) [1, 0, 2] =
      some "a -- b".toList ∧
    "a -- b".toList ≠ "a--b".toList := by decide

/-- Claim C1 (amended): the encode-decode round trip holds exactly on
canonically spaced text, i.e. text in the image of decode: whenever
`decode(ids)` succeeds with text `t`, `decode(encode(t)) = t`.  (For
other vocabulary-only texts, encode-then-decode canonicalizes the
spacing instead of reproducing the input, as the counterexample
shows.) -/
theorem c1_roundtrip_canonical {corpus : List Char} {ids : List Nat}
    {t : List Char} (h : decodeV2 (allTokens corpus) ids = some t) :
    (encodeV2 (allTokens corpus) t).bind (decodeV2 (allTokens corpus)) =
      some t := by
  rw [encodeV2_decodeV2_aux h]
  simpa using h

/-- Claim C1 witness: on corpus "a b", the canonically spaced text
"a b" (the decoding of [0, 1]) round-trips exactly. -/
theorem c1_roundtrip_canonical_witness :
    (encodeV2 (allTokens "a b".toList) "a b".toList).bind
      (decodeV2 (allTokens "a b".toList)) = some "a b".toList :=
  @c1_roundtrip_canonical "a b".toList [0, 1] "a b".toList (by decide)

/-- Claim C10: encode is a left inverse of decode on valid id
sequences: if every id is bound in `int_to_str`, then decode succeeds
and encoding the decoded text returns exactly the original ids. -/
theorem c10_encode_decode (corpus : List Char) (ids : List Nat)
    (h : ∀ i ∈ ids, (intToStr (allTokens corpus) i).isSome = true) :
    (decodeV2 (allTokens corpus) ids).bind (encodeV2 (allTokens corpus))
      = some ids := by
  have hsome := mapO_some_of_forall h
  cases hm : mapO (intToStr (allTokens corpus)) ids with
  | none => rw [hm] at hsome; simp at hsome
  | some ss =>
    have hdec : decodeV2 (allTokens corpus) ids =
        some (removeSpP isDecPunct (joinSp ss)) := by
      simp [decodeV2, hm]
    rw [hdec]
    exact encodeV2_decodeV2_aux hdec

/-- Claim C10 witness: on corpus "a b", the valid id sequence [0, 1]
decodes to "a b" and re-encodes to [0, 1]. -/
theorem c10_encode_decode_witness :
    (decodeV2 (allTokens "a b".toList) [0, 1]).bind
      (encodeV2 (allTokens "a b".toList)) = some [0, 1] :=
  c10_encode_decode "a b".toList [0, 1] (by decide)

/-- Claim C4 counterexample: decode does NOT concatenate the symbols
with no separator: decoding [0, 1] over the corpus "a b" yields "a b"
(space-joined), not the separator-free concatenation "ab". -/
theorem c4_cex :
    decodeV2 (allTokens "a b".toList) [0, 1] = some "a b".toList ∧
    "a b".toList ≠ "ab".toList := by decide

/-- Claim C4 (amended): decode looks up each id in `int_to_str`
(failing when an id is unbound) and joins the symbol strings with one
space between consecutive symbols, EXCEPT that no space precedes a
symbol whose first character is one of `,.:;?!"()'` — i.e. it returns
`condJoin` of the symbols, not their bare concatenation. -/
theorem c4_decode_joins {corpus : List Char} {ids : List Nat}
    {ss : List (List Char)}
    (h : mapO (intToStr (allTokens corpus)) ids = some ss) :
    decodeV2 (allTokens corpus) ids = some (condJoin ss) := by
  simp only [decodeV2, h, Option.map_some']
  congr 1
  refine removeSpP_joinSp ?_
  intro s hs
  obtain ⟨i, _, hi⟩ := mapO_mem h s hs
  exact tokenB_noWS (allTokens_tokens (intToStr_mem hi))

/-- Claim C4 witness: with corpus "a .", decoding [1, 0] (the symbols
"a" and ".") produces the conditional join "a." with no space before
the period. -/
theorem c4_decode_joins_witness :
    decodeV2 (allTokens "a .".toList) [1, 0] =
      some (condJoin [['a'], ['.']]) :=
  c4_decode_joins (by decide)

/-! ### BPE trainer

Modelled from the spec: the repository contains no BPE trainer (the
source only calls the external tiktoken library), so the trainer of
spec section 4.3 is modelled here from the spec's words: count adjacent
symbol-pair frequencies across all corpus sequences, select the
highest-frequency pair with lexicographic tie-break on the concatenated
pair, record a merge rule, replace occurrences non-overlapping left to
right, and stop when the target vocabulary size is reached or no pair
has frequency at least 2. -/

/-- Modelled from the spec: the adjacent (current, next) symbol pairs
of one sequence. -/
def seqPairs : List (List Char) → List (List Char × List Char)
  | x :: y :: rest => (x, y) :: seqPairs (y :: rest)
  | _ => []

/-- Modelled from the spec: all adjacent pairs across all sequences. -/
def pairList (seqs : List (List (List Char))) :
    List (List Char × List Char) :=
  (seqs.map seqPairs).flatten

/-- Modelled from the spec: occurrences of the adjacent pair `(a, b)`
in one sequence. -/
def countPairSeq (a b : List Char) : List (List Char) → Nat
  | x :: y :: rest =>
    (if x = a ∧ y = b then 1 else 0) + countPairSeq a b (y :: rest)
  | _ => 0

/-- Modelled from the spec: frequency of the adjacent pair `(a, b)`
across all sequences. -/
def countPair (a b : List Char) (seqs : List (List (List Char))) : Nat :=
  (seqs.map (countPairSeq a b)).sum

/-- Modelled from the spec: `p` beats `q` when it is more frequent, or
equally frequent with lexicographically smaller concatenation
(deterministic tie-break). -/
def betterPair (seqs : List (List (List Char)))
    (p q : List Char × List Char) : Bool :=
  countPair q.1 q.2 seqs < countPair p.1 p.2 seqs ||
  (countPair p.1 p.2 seqs = countPair q.1 q.2 seqs &&
    lexLt (p.1 ++ p.2) (q.1 ++ q.2))

/-- One selection step: keep the better of the current candidate and
the next pair. -/
def pickStep (seqs : List (List (List Char)))
    (acc : Option (List Char × List Char)) (p : List Char × List Char) :
    Option (List Char × List Char) :=
  match acc with
  | none => some p
  | some q => if betterPair seqs p q then some p else some q

/-- Modelled from the spec: the highest-frequency adjacent pair, ties
broken by lexicographic order of the concatenation; `none` when there
are no adjacent pairs at all. -/
def pickBest (seqs : List (List (List Char))) :
    Option (List Char × List Char) :=
  (pairList seqs).foldl (pickStep seqs) none

/-- Modelled from the spec: replace every non-overlapping occurrence of
the adjacent pair `(a, b)`, left to right, by the merged symbol `m`. -/
def replacePair (a b m : List Char) : List (List Char) → List (List Char)
  | x :: y :: rest =>
    if x = a ∧ y = b then m :: replacePair a b m rest
    else x :: replacePair a b m (y :: rest)
  | other => other

/-- Training state: the working sequences, the vocabulary built so far,
and the merge rules recorded so far (rank = list position). -/
structure TrainState where
  seqs : List (List (List Char))
  vocab : List (List Char)
  merges : List (List Char × List Char)

/-- Total number of symbols across all sequences: the termination
measure of the merge loop. -/
def totalLen (seqs : List (List (List Char))) : Nat :=
  (seqs.map List.length).sum

/-- Modelled from the spec: the merge loop.  Stops when the target
vocabulary size is reached or no adjacent pair has frequency at least
2; otherwise merges the best pair and recurses.  `fuel` bounds the
iteration count; `totalLen` fuel is proven sufficient below. -/
def trainLoop (target : Nat) : Nat → TrainState → TrainState
  | 0, st => st
  | fuel + 1, st =>
    if target ≤ st.vocab.length then st
    else
      match pickBest st.seqs with
      | none => st
      | some (a, b) =>
        if 2 ≤ countPair a b st.seqs then
          trainLoop target fuel
            ⟨st.seqs.map (replacePair a b (a ++ b)),
             st.vocab ++ [a ++ b],
             st.merges ++ [(a, b)]⟩
        else st

/-- Modelled from the spec: initial state: the corpus sequences, the
sorted distinct atomic symbols as initial vocabulary, no merges. -/
def initState (corpus : List (List (List Char))) : TrainState :=
  ⟨corpus, sortDedup corpus.flatten, []⟩

/-- Modelled from the spec: full training: fails with `EmptyCorpus`
(modelled as `none`) when the corpus has no atomic symbols, otherwise
runs the merge loop and appends the special tokens last. -/
def train (corpus : List (List (List Char))) (target : Nat)
    (specials : List (List Char)) :
    Option (List (List Char) × List (List Char × List Char)) :=
  if corpus.flatten.isEmpty then none
  else
    some ((trainLoop target (totalLen corpus) (initState corpus)).vocab
            ++ specials,
          (trainLoop target (totalLen corpus) (initState corpus)).merges)

/-! ### Trainer termination -/

theorem betterPair_true_le {seqs : List (List (List Char))}
    {p q : List Char × List Char} (h : betterPair seqs p q = true) :
    countPair q.1 q.2 seqs ≤ countPair p.1 p.2 seqs := by
  simp only [betterPair, Bool.or_eq_true, Bool.and_eq_true,
    decide_eq_true_eq] at h
  rcases h with h | h
  · exact Nat.le_of_lt h
  · exact Nat.le_of_eq h.1.symm

theorem betterPair_false_le {seqs : List (List (List Char))}
    {p q : List Char × List Char} (h : betterPair seqs p q = false) :
    countPair p.1 p.2 seqs ≤ countPair q.1 q.2 seqs := by
  simp only [betterPair, Bool.or_eq_false_iff, Bool.and_eq_false_iff,
    decide_eq_false_iff_not] at h
  omega

theorem pickFold_max {seqs : List (List (List Char))} :
    ∀ (ps : List (List Char × List Char))
      (acc : Option (List Char × List Char)) (q : List Char × List Char),
      ps.foldl (pickStep seqs) acc = some q →
      (∀ p ∈ ps, countPair p.1 p.2 seqs ≤ countPair q.1 q.2 seqs) ∧
      (∀ q0, acc = some q0 →
        countPair q0.1 q0.2 seqs ≤ countPair q.1 q.2 seqs) := by
  intro ps
  induction ps with
  | nil =>
    intro acc q h
    simp only [List.foldl_nil] at h
    refine ⟨by simp, ?_⟩
    intro q0 h0
    rw [h0] at h
    injection h with h
    subst h
    exact le_refl _
  | cons p ps' ih =>
    intro acc q h
    simp only [List.foldl_cons] at h
    obtain ⟨ih1, ih2⟩ := ih (pickStep seqs acc p) q h
    have hple : countPair p.1 p.2 seqs ≤ countPair q.1 q.2 seqs := by
      cases hacc : acc with
      | none =>
        refine ih2 p ?_
        simp [pickStep, hacc]
      | some q' =>
        by_cases hb : betterPair seqs p q' = true
        · refine ih2 p ?_
          simp [pickStep, hacc, hb]
        · rw [Bool.not_eq_true] at hb
          have h1 := betterPair_false_le hb
          have h2 : countPair q'.1 q'.2 seqs ≤ countPair q.1 q.2 seqs := by
            refine ih2 q' ?_
            simp [pickStep, hacc, hb]
          exact le_trans h1 h2
    refine ⟨?_, ?_⟩
    · intro x hx
      rcases List.mem_cons.mp hx with hx | hx
      · subst hx; exact hple
      · exact ih1 x hx
    · intro q0 h0
      subst h0
      by_cases hb : betterPair seqs p q0 = true
      · exact le_trans (betterPair_true_le hb) (by
          refine ih2 p ?_
          simp [pickStep, hb])
      · rw [Bool.not_eq_true] at hb
        refine ih2 q0 ?_
        simp [pickStep, hb]

theorem pickBest_max {seqs : List (List (List Char))}
    {q : List Char × List Char} (h : pickBest seqs = some q) :
    ∀ p ∈ pairList seqs,
      countPair p.1 p.2 seqs ≤ countPair q.1 q.2 seqs :=
  (pickFold_max (pairList seqs) none q h).1

theorem pickFold_isSome {seqs : List (List (List Char))} :
    ∀ (ps : List (List Char × List Char))
      (acc : Option (List Char × List Char)),
      acc.isSome = true →
      (ps.foldl (pickStep seqs) acc).isSome = true := by
  intro ps
  induction ps with
  | nil => intro acc h; simpa using h
  | cons p ps' ih =>
    intro acc h
    simp only [List.foldl_cons]
    refine ih _ ?_
    cases acc with
    | none => simp at h
    | some q =>
      simp only [pickStep]
      by_cases hb : betterPair seqs p q = true
      · simp [hb]
      · simp [hb]

theorem pickBest_none_empty {seqs : List (List (List Char))}
    (h : pickBest seqs = none) : pairList seqs = [] := by
  cases hps : pairList seqs with
  | nil => rfl
  | cons p ps' =>
    have : (pairList seqs).foldl (pickStep seqs) none =
        ps'.foldl (pickStep seqs) (some p) := by
      rw [hps]
      rfl
    have hsome := @pickFold_isSome seqs ps' (some p) rfl
    rw [← this] at hsome
    rw [show (pairList seqs).foldl (pickStep seqs) none = pickBest seqs
      from rfl, h] at hsome
    simp at hsome

theorem countPairSeq_pos_mem {a b : List Char} :
    ∀ (n : Nat) (s : List (List Char)), s.length ≤ n →
      0 < countPairSeq a b s → (a, b) ∈ seqPairs s := by
  intro n
  induction n with
  | zero =>
    intro s hs h
    have : s = [] := List.eq_nil_of_length_eq_zero (Nat.le_zero.mp hs)
    subst this
    simp [countPairSeq] at h
  | succ n ih =>
    intro s hs h
    cases s with
    | nil => simp [countPairSeq] at h
    | cons x s2 =>
      cases s2 with
      | nil => simp [countPairSeq] at h
      | cons y rest =>
        simp only [countPairSeq] at h
        by_cases hxy : x = a ∧ y = b
        · simp [seqPairs, hxy.1, hxy.2]
        · rw [if_neg hxy] at h
          simp only [Nat.zero_add] at h
          have hlen : (y :: rest).length ≤ n := by
            simp only [List.length_cons] at hs ⊢; omega
          exact List.mem_cons_of_mem _ (ih (y :: rest) hlen h)

theorem countPair_pos_mem {a b : List Char}
    {seqs : List (List (List Char))} (h : 0 < countPair a b seqs) :
    (a, b) ∈ pairList seqs := by
  induction seqs with
  | nil => simp [countPair] at h
  | cons s rest ih =>
    simp only [countPair, List.map_cons, List.sum_cons] at h
    simp only [pairList, List.map_cons, List.flatten_cons, List.mem_append]
    by_cases hs : 0 < countPairSeq a b s
    · exact Or.inl (countPairSeq_pos_mem s.length s le_rfl hs)
    · have : 0 < countPair a b rest := by
        simp only [countPair]
        omega
      exact Or.inr (by simpa [pairList] using ih this)

theorem countPairSeq_le {a b : List Char} :
    ∀ (n : Nat) (s : List (List Char)), s.length ≤ n →
      countPairSeq a b s ≤ s.length := by
  intro n
  induction n with
  | zero =>
    intro s hs
    have : s = [] := List.eq_nil_of_length_eq_zero (Nat.le_zero.mp hs)
    subst this
    simp [countPairSeq]
  | succ n ih =>
    intro s hs
    cases s with
    | nil => simp [countPairSeq]
    | cons x s2 =>
      cases s2 with
      | nil => simp [countPairSeq]
      | cons y rest =>
        simp only [countPairSeq]
        have hlen : (y :: rest).length ≤ n := by
          simp only [List.length_cons] at hs ⊢; omega
        have := ih (y :: rest) hlen
        simp only [List.length_cons] at this ⊢
        by_cases hxy : x = a ∧ y = b
        · rw [if_pos hxy]; omega
        · rw [if_neg hxy]; omega

theorem countPair_le_totalLen {a b : List Char}
    {seqs : List (List (List Char))} :
    countPair a b seqs ≤ totalLen seqs := by
  induction seqs with
  | nil => simp [countPair, totalLen]
  | cons s rest ih =>
    simp only [countPair, totalLen, List.map_cons, List.sum_cons] at ih ⊢
    have := countPairSeq_le (a := a) (b := b) s.length s le_rfl
    omega

theorem replacePair_length {a b m : List Char} :
    ∀ (n : Nat) (s : List (List Char)), s.length ≤ n →
      (replacePair a b m s).length ≤ s.length ∧
      (0 < countPairSeq a b s →
        (replacePair a b m s).length < s.length) := by
  intro n
  induction n with
  | zero =>
    intro s hs
    have : s = [] := List.eq_nil_of_length_eq_zero (Nat.le_zero.mp hs)
    subst this
    refine ⟨le_refl _, ?_⟩
    simp [countPairSeq]
  | succ n ih =>
    intro s hs
    cases s with
    | nil =>
      refine ⟨le_refl _, ?_⟩
      simp [countPairSeq]
    | cons x s2 =>
      cases s2 with
      | nil =>
        refine ⟨le_refl _, ?_⟩
        simp [countPairSeq]
      | cons y rest =>
        have hlen1 : (y :: rest).length ≤ n := by
          simp only [List.length_cons] at hs ⊢; omega
        have hlen2 : rest.length ≤ n := by
          simp only [List.length_cons] at hs; omega
        by_cases hxy : x = a ∧ y = b
        · have hle := (ih rest hlen2).1
          simp only [replacePair, if_pos hxy, List.length_cons]
          constructor
          · omega
          · intro _
            omega
        · have hle := (ih (y :: rest) hlen1).1
          have hlt := (ih (y :: rest) hlen1).2
          simp only [replacePair, if_neg hxy, List.length_cons]
          constructor
          · simp only [List.length_cons] at hle
            omega
          · intro hpos
            simp only [countPairSeq, if_neg hxy, Nat.zero_add] at hpos
            have := hlt hpos
            simp only [List.length_cons] at this
            omega

theorem totalLen_replace {a b m : List Char}
    {seqs : List (List (List Char))} :
    totalLen (seqs.map (replacePair a b m)) ≤ totalLen seqs ∧
    (0 < countPair a b seqs →
      totalLen (seqs.map (replacePair a b m)) < totalLen seqs) := by
  induction seqs with
  | nil =>
    refine ⟨le_refl _, ?_⟩
    simp [countPair]
  | cons s rest ih =>
    simp only [totalLen, countPair, List.map_cons, List.sum_cons]
      at ih ⊢
    have hs := replacePair_length (a := a) (b := b) (m := m)
      s.length s le_rfl
    constructor
    · omega
    · intro hpos
      by_cases hhead : 0 < countPairSeq a b s
      · have := hs.2 hhead
        omega
      · have : 0 < countPair a b rest := by
          simp only [countPair]
          omega
        have := ih.2 (by simpa [countPair] using this)
        omega

theorem trainLoop_spec (target : Nat) :
    ∀ (fuel : Nat) (st : TrainState), totalLen st.seqs ≤ fuel →
      (target ≤ (trainLoop target fuel st).vocab.length ∨
        ∀ a b, countPair a b (trainLoop target fuel st).seqs < 2) ∧
      (trainLoop target fuel st).merges.length ≤
        st.merges.length + totalLen st.seqs := by
  intro fuel
  induction fuel with
  | zero =>
    intro st hst
    simp only [trainLoop]
    refine ⟨Or.inr ?_, by omega⟩
    intro a b
    have h1 := @countPair_le_totalLen a b st.seqs
    omega
  | succ fuel ih =>
    intro st hst
    by_cases ht : target ≤ st.vocab.length
    · rw [show trainLoop target (fuel + 1) st = st by
        simp [trainLoop, ht]]
      exact ⟨Or.inl ht, by omega⟩
    · cases hpb : pickBest st.seqs with
      | none =>
        rw [show trainLoop target (fuel + 1) st = st by
          simp [trainLoop, ht, hpb]]
        refine ⟨Or.inr ?_, by omega⟩
        intro a b
        rcases Nat.eq_zero_or_pos (countPair a b st.seqs) with h | h
        · omega
        · have := countPair_pos_mem h
          rw [pickBest_none_empty hpb] at this
          simp at this
      | some p =>
        obtain ⟨a, b⟩ := p
        by_cases hc : 2 ≤ countPair a b st.seqs
        · have hstep : trainLoop target (fuel + 1) st =
              trainLoop target fuel
                ⟨st.seqs.map (replacePair a b (a ++ b)),
                 st.vocab ++ [a ++ b],
                 st.merges ++ [(a, b)]⟩ := by
            simp [trainLoop, ht, hpb, hc]
          have hdec : totalLen (st.seqs.map (replacePair a b (a ++ b)))
              < totalLen st.seqs :=
            totalLen_replace.2 (by omega)
          have hfuel : totalLen (st.seqs.map (replacePair a b (a ++ b)))
              ≤ fuel := by omega
          obtain ⟨hstop, hmerge⟩ := ih
            ⟨st.seqs.map (replacePair a b (a ++ b)),
             st.vocab ++ [a ++ b], st.merges ++ [(a, b)]⟩ hfuel
          rw [hstep]
          refine ⟨hstop, ?_⟩
          simp only [List.length_append, List.length_cons,
            List.length_nil] at hmerge
          omega
        · rw [show trainLoop target (fuel + 1) st = st by
            simp [trainLoop, ht, hpb, hc]]
          refine ⟨Or.inr ?_, by omega⟩
          intro p q
          rcases Nat.eq_zero_or_pos (countPair p q st.seqs) with h | h
          · omega
          · have hmem := countPair_pos_mem h
            have := pickBest_max hpb (p, q) hmem
            simp only at this
            omega

/-- The final training state: the merge loop run with fuel equal to
the corpus symbol count. -/
def trainResult (corpus : List (List (List Char))) (target : Nat) :
    TrainState :=
  trainLoop target (totalLen corpus) (initState corpus)

/-- Claim C8: BPE training terminates: with fuel equal to the total
symbol count the merge loop reaches a genuine stopping state — either
the target vocabulary size has been reached or no adjacent pair has
frequency at least 2 — and the number of merges performed is bounded by
the total number of corpus symbols. -/
theorem c8_train_terminates (corpus : List (List (List Char)))
    (target : Nat) :
    (target ≤ (trainResult corpus target).vocab.length ∨
      ∀ a b, countPair a b (trainResult corpus target).seqs < 2) ∧
    (trainResult corpus target).merges.length ≤ totalLen corpus := by
  have := trainLoop_spec target (totalLen corpus) (initState corpus)
    (by simp [initState])
  simpa [trainResult, initState] using this

/-- Claim C8 witness: on the spec's corpus low/lower/lowest (14 atomic
symbols) with a huge target, training performs at most 14 merges. -/
theorem c8_train_terminates_witness :
    (trainResult [[['l'], ['o'], ['w']],
        [['l'], ['o'], ['w'], ['e'], ['r']],
        [['l'], ['o'], ['w'], ['e'], ['s'], ['t']]] 1000).merges.length ≤
      totalLen [[['l'], ['o'], ['w']],
        [['l'], ['o'], ['w'], ['e'], ['r']],
        [['l'], ['o'], ['w'], ['e'], ['s'], ['t']]] :=
  (c8_train_terminates [[['l'], ['o'], ['w']],
        [['l'], ['o'], ['w'], ['e'], ['r']],
        [['l'], ['o'], ['w'], ['e'], ['s'], ['t']]] 1000).2
